import Mathlib

/-!
A shallow embedding of the py_metrics import analyzer (src/main.py).

Modelling conventions:
* a module name is a dotted string, exactly as in the Python source;
* a file path relative to the scanned root is its list of segments (`RelPath`);
* Python sets of strings are modelled as duplicate-free lists built with
  `insertSet` (claims only use membership and cardinality of these sets);
* Python dicts are modelled as insertion-ordered association lists whose
  update-in-place semantics is `dictInsert`;
* the source-tree walker and the AST parser are external collaborators: a
  `SourceFile` carries its path together with the list of `ImportRecord`s the
  parser would produce for it (a file that fails to parse carries `[]`).
-/

namespace PyMetrics

/-- Python `str.split "."` on the character list: every dot starts a new
segment, and the empty string yields a single empty segment. -/
def splitChars : List Char → List (List Char)
  | [] => [[]]
  | c :: rest =>
    let r := splitChars rest
    if c = '.' then [] :: r
    else
      match r with
      | [] => [[c]]
      | seg :: segs => (c :: seg) :: segs

/-- Python `s.split "."` (the separator is the single dot character). -/
def dotSplit (s : String) : List String :=
  (splitChars s.data).map (fun cs => String.mk cs)

/-- Python `".".join parts`. -/
def joinDots : List String → String
  | [] => ""
  | [p] => p
  | p :: rest => p ++ "." ++ joinDots rest

/-- Python `s[:-k]` on characters: for `k > 0` this drops the last `k`
characters (all of them when the string is shorter); `s[:-0]` is the empty
slice. -/
def pyDropRight (s : String) (k : Nat) : String :=
  if k = 0 then "" else String.mk (s.data.take (s.data.length - k))

/-- Python `parts[:-k]`: for `k > 0` the first `length - k` elements;
`parts[:-0]` is the empty slice. -/
def dropLastPy (l : List String) (k : Nat) : List String :=
  if k = 0 then [] else l.take (l.length - k)

/-- A file path relative to the scanned root, as its list of segments. -/
abbrev RelPath := List String

/-- Python `str path` of a root-relative path on POSIX: segments joined
with a slash. -/
def pathStr : RelPath → String
  | [] => ""
  | [p] => p
  | p :: rest => p ++ "/" ++ pathStr rest

/-- A Python `dict[str, Path]`, as an insertion-ordered association list. -/
abbrev Registry := List (String × RelPath)

/-- The keys of an association list, in iteration order. -/
def dictKeys {α : Type} (d : List (String × α)) : List String :=
  d.map Prod.fst

/-- Python `d[k] = v` on a dict: overwrite in place if the key is present
(keeping its position), otherwise append the new binding. -/
def dictInsert (d : Registry) (k : String) (v : RelPath) : Registry :=
  if k ∈ dictKeys d then d.map (fun p => if p.1 = k then (k, v) else p)
  else d ++ [(k, v)]

/-- Python `d[k]` on a dict (as an `Option`). -/
def dictLookup : Registry → String → Option RelPath
  | [], _ => none
  | p :: d, k => if p.1 = k then some p.2 else dictLookup d k

/-- `file_to_module_name` (src/main.py, lines 11-20): a package initializer
maps to its containing directory's dotted path (empty at the root); any other
file maps to its directory segments plus its base name with `.py` stripped.
A file's root-relative path always has at least one segment, so the `none`
branch is unreachable on real inputs. -/
def file_to_module_name (parts : RelPath) : String :=
  match parts.getLast? with
  | none => ""
  | some last =>
    if last = "__init__.py" then joinDots parts.dropLast
    else joinDots (parts.dropLast ++ [pyDropRight last 3])

/-- `compute_depth` (src/main.py, lines 23-24): number of root-relative
segments minus one. -/
def compute_depth (parts : RelPath) : Nat :=
  parts.length - 1

/-- One import statement as produced by the external AST parser:
`ast.Import` carries the dotted alias names, `ast.ImportFrom` carries the
relative level (0 for absolute), the optional base module and the imported
names (a name may be the wildcard marker `*`). -/
inductive ImportRecord where
  | direct (names : List String)
  | fromStyle (level : Nat) (module : Option String) (names : List String)
deriving DecidableEq

/-- One discovered source file: its root-relative path and the import
records the parser yields for it (empty for an unparsable file). -/
structure SourceFile where
  path : RelPath
  records : List ImportRecord
deriving DecidableEq

/-- Lexicographic comparison of character lists by code point, i.e. Python's
string comparison. -/
def charListLe : List Char → List Char → Bool
  | [], _ => true
  | _ :: _, [] => false
  | a :: as, b :: bs => if a < b then true else if b < a then false else charListLe as bs

theorem charListLe_total : ∀ as bs, charListLe as bs = true ∨ charListLe bs as = true
  | [], _ => Or.inl rfl
  | _ :: _, [] => Or.inr rfl
  | a :: as, b :: bs => by
    rcases lt_trichotomy a b with h | h | h
    · exact Or.inl (by simp [charListLe, h])
    · subst h
      rcases charListLe_total as bs with h' | h'
      · exact Or.inl (by simp [charListLe, h'])
      · exact Or.inr (by simp [charListLe, h'])
    · exact Or.inr (by simp [charListLe, h])

theorem charListLe_trans :
    ∀ as bs cs, charListLe as bs = true → charListLe bs cs = true →
      charListLe as cs = true
  | [], _, _, _, _ => rfl
  | _ :: _, [], _, h, _ => by simp [charListLe] at h
  | _ :: _, _ :: _, [], _, h' => by simp [charListLe] at h'
  | a :: as, b :: bs, c :: cs, h, h' => by
    simp only [charListLe] at h h' ⊢
    rcases lt_trichotomy a b with hab | hab | hab
    · rcases lt_trichotomy b c with hbc | hbc | hbc
      · simp [hab.trans hbc]
      · subst hbc
        simp [hab]
      · rcases lt_trichotomy a c with hac | hac | hac
        · simp [hac]
        · subst hac
          simp [hab, not_lt.2 hbc.le] at h'
        · simp [hbc, not_lt.2 hbc.le] at h'
    · subst hab
      rcases lt_trichotomy a c with hac | hac | hac
      · simp [hac]
      · subst hac
        simp [lt_irrefl] at h h' ⊢
        exact charListLe_trans _ _ _ h h'
      · simp [not_lt.2 hac.le, hac] at h' ⊢
    · simp [not_lt.2 hab.le, hab] at h

/-- String order by code points (Python's string comparison). -/
def strLe (a b : String) : Prop :=
  charListLe a.data b.data = true

instance : DecidableRel strLe :=
  fun a b => inferInstanceAs (Decidable (charListLe a.data b.data = true))

instance : IsTotal String strLe := ⟨fun a b => charListLe_total a.data b.data⟩

instance : IsTrans String strLe :=
  ⟨fun a b c h h' => charListLe_trans a.data b.data c.data h h'⟩

/-- Path order used by Python's `sorted` on `Path` values (POSIX): the
string form of the path. -/
def fileLe (f g : SourceFile) : Prop :=
  strLe (pathStr f.path) (pathStr g.path)

instance : DecidableRel fileLe :=
  fun f g => inferInstanceAs (Decidable (strLe (pathStr f.path) (pathStr g.path)))

instance : IsTotal SourceFile fileLe :=
  ⟨fun f g => charListLe_total (pathStr f.path).data (pathStr g.path).data⟩

instance : IsTrans SourceFile fileLe :=
  ⟨fun _ _ _ h h' => charListLe_trans _ _ _ h h'⟩

/-- `collect_python_files` (src/main.py, lines 7-8): the tree's files in
sorted (lexicographic path) order; the walk itself is the external
collaborator, so it is modelled as a stable sort of the given file list. -/
def collect_python_files (files : List SourceFile) : List SourceFile :=
  List.insertionSort fileLe files

/-- Adding an element to a Python set, modelled on duplicate-free lists. -/
def insertSet (l : List String) (x : String) : List String :=
  if x ∈ l then l else l ++ [x]

/-- The registry-building step for one file (src/main.py, lines 30-32). -/
def registerFile (registry : Registry) (f : SourceFile) : Registry :=
  let name := file_to_module_name f.path
  if name ≠ "" then dictInsert registry name f.path else registry

/-- `build_module_registry` (src/main.py, lines 27-33): map each discovered
file to its canonical module name, skipping the empty name. -/
def build_module_registry (files : List SourceFile) : Registry :=
  (collect_python_files files).foldl registerFile []

/-- The per-name step of `resolve_relative_import` when a base module is
present (src/main.py, lines 52-57): the wildcard marker is never tried as
`base.name`, but both it and a name whose `base.name` is unknown fall back
to `base` when `base` is known. -/
def relStepBase (known_modules : Registry) (base : String)
    (resolved : List String) (name : String) : List String :=
  if name ≠ "*" ∧ (base ++ "." ++ name) ∈ dictKeys known_modules then
    insertSet resolved (base ++ "." ++ name)
  else if base ∈ dictKeys known_modules then insertSet resolved base
  else resolved

/-- The per-name step of `resolve_relative_import` when no base module is
present (src/main.py, lines 59-62). -/
def relStepNoBase (known_modules : Registry) (anchor_parts : List String)
    (resolved : List String) (name : String) : List String :=
  if joinDots (anchor_parts ++ [name]) ∈ dictKeys known_modules then
    insertSet resolved (joinDots (anchor_parts ++ [name]))
  else resolved

/-- `resolve_relative_import` (src/main.py, lines 36-64). -/
def resolve_relative_import (level : Nat) (module : Option String)
    (names : List String) (current_module : String)
    (known_modules : Registry) : List String :=
  let parts := dotSplit current_module
  if parts.length < level then []
  else
    let anchor_parts := dropLastPy parts level
    match module with
    | some m =>
      names.foldl
        (relStepBase known_modules (joinDots (anchor_parts ++ dotSplit m))) []
    | none => names.foldl (relStepNoBase known_modules anchor_parts) []

/-- The candidate search loop of `_handle_ast_import`
(src/main.py, lines 75-80): `for i in range(len, 0, -1)` tries the prefix of
`i` segments and stops at the first one in the registry; the argument is the
number of prefix lengths still to try, counting down. -/
def searchCandidates (known_modules : Registry) (name_parts : List String) :
    Nat → Option String
  | 0 => none
  | i + 1 =>
    if joinDots (name_parts.take (i + 1)) ∈ dictKeys known_modules then
      some (joinDots (name_parts.take (i + 1)))
    else searchCandidates known_modules name_parts i

/-- The most specific known candidate for a direct import
(src/main.py, lines 74-80). -/
def firstKnownCandidate (name : String) (known_modules : Registry) :
    Option String :=
  searchCandidates known_modules (dotSplit name) (dotSplit name).length

/-- Handling of one alias of an `ast.Import` node
(src/main.py, lines 72-82); `if best:` in Python also rejects the empty
string, not just `None`. -/
def handle_direct_name (known_modules : Registry) (imported : List String)
    (name : String) : List String :=
  match firstKnownCandidate name known_modules with
  | some best => if best ≠ "" then insertSet imported best else imported
  | none => imported

/-- `_handle_ast_import` (src/main.py, lines 67-82). -/
def handle_ast_import (names : List String) (known_modules : Registry)
    (imported : List String) : List String :=
  names.foldl (handle_direct_name known_modules) imported

/-- The per-name step of an absolute from-style import
(src/main.py, lines 104-109): try `module.name` as a known module, else
fall back to `module` itself when known. -/
def absStep (known_modules : Registry) (m : String) (acc : List String)
    (name : String) : List String :=
  if (m ++ "." ++ name) ∈ dictKeys known_modules then
    insertSet acc (m ++ "." ++ name)
  else if m ∈ dictKeys known_modules then insertSet acc m
  else acc

/-- `_handle_ast_import_from` (src/main.py, lines 85-109). -/
def handle_ast_import_from (level : Nat) (module : Option String)
    (names : List String) (current_module : String)
    (known_modules : Registry) (imported : List String) : List String :=
  if 0 < level then
    (resolve_relative_import level module names current_module
        known_modules).foldl insertSet imported
  else
    match module with
    | none => imported
    | some m => names.foldl (absStep known_modules m) imported

/-- `parse_file_imports` (src/main.py, lines 112-136), with the file's
records supplied by the external parser. -/
def parse_file_imports (records : List ImportRecord) (current_module : String)
    (known_modules : Registry) : List String :=
  records.foldl
    (fun imported rec =>
      match rec with
      | .direct names => handle_ast_import names known_modules imported
      | .fromStyle level module names =>
        handle_ast_import_from level module names current_module
          known_modules imported)
    []

/-- The reverse-dependency index, mapping each known module to the set of
root-relative paths of the files importing it. -/
abbrev ImporterIndex := List (String × List String)

/-- Python `importers[mod]` (only ever called on present keys). -/
def indexLookup : ImporterIndex → String → List String
  | [], _ => []
  | p :: d, k => if p.1 = k then p.2 else indexLookup d k

/-- `if mod in importers: importers[mod].add(rel_path)`
(src/main.py, lines 152-153). -/
def addImporter (imps : ImporterIndex) (mod : String) (rel : String) :
    ImporterIndex :=
  if mod ∈ dictKeys imps then
    imps.map (fun p => if p.1 = mod then (p.1, insertSet p.2 rel) else p)
  else imps

/-- Recording one resolved edge (src/main.py, lines 149-153): a module equal
to the importing file's own name is skipped. -/
def recordEdge (current_module rel_path : String) (imps : ImporterIndex)
    (mod : String) : ImporterIndex :=
  if mod = current_module then imps else addImporter imps mod rel_path

/-- Processing of one file in the aggregation loop of `analyze`
(src/main.py, lines 143-153): a file with an empty module name is skipped;
otherwise each resolved module other than the file itself records the
file's root-relative path. -/
def processFile (known_modules : Registry) (imps : ImporterIndex)
    (f : SourceFile) : ImporterIndex :=
  let current_module := file_to_module_name f.path
  if current_module = "" then imps
  else
    let rel_path := pathStr f.path
    let imported := parse_file_imports f.records current_module known_modules
    imported.foldl (recordEdge current_module rel_path) imps

/-- The importer index built by the loop of `analyze`
(src/main.py, lines 141-153), starting from an empty set per known module. -/
def build_importer_index (known_modules : Registry)
    (files : List SourceFile) : ImporterIndex :=
  (collect_python_files files).foldl (processFile known_modules)
    (known_modules.map (fun p => (p.1, [])))

/-- One row of the metrics table produced by `analyze`. -/
structure ModuleMetrics where
  module : String
  rel_path : String
  depth : Nat
  import_count : Nat
  importers : List String
  score : Nat
deriving DecidableEq

/-- `analyze` (src/main.py, lines 139-170). -/
def analyze (files : List SourceFile) : List ModuleMetrics :=
  let known_modules := build_module_registry files
  let importers := build_importer_index known_modules files
  known_modules.map
    (fun p =>
      { module := p.1
        rel_path := pathStr p.2
        depth := compute_depth p.2
        import_count := (indexLookup importers p.1).length
        importers := List.insertionSort strLe (indexLookup importers p.1)
        score := compute_depth p.2 * (indexLookup importers p.1).length })

/-- Sort key order of `cmd_dead` (src/main.py, line 280): depth descending,
then module name ascending. -/
def deadLe (a b : ModuleMetrics) : Prop :=
  b.depth < a.depth ∨ (a.depth = b.depth ∧ strLe a.module b.module)

instance : DecidableRel deadLe :=
  fun a b =>
    inferInstanceAs
      (Decidable
        (b.depth < a.depth ∨ (a.depth = b.depth ∧ strLe a.module b.module)))

instance : IsTotal ModuleMetrics deadLe := by
  constructor
  intro a b
  rcases Nat.lt_trichotomy b.depth a.depth with h | h | h
  · exact Or.inl (Or.inl h)
  · rcases charListLe_total a.module.data b.module.data with h' | h'
    · exact Or.inl (Or.inr ⟨h.symm, h'⟩)
    · exact Or.inr (Or.inr ⟨h, h'⟩)
  · exact Or.inr (Or.inl h)

instance : IsTrans ModuleMetrics deadLe := by
  constructor
  intro a b c hab hbc
  rcases hab with h1 | ⟨h1, h1'⟩
  · rcases hbc with h2 | ⟨h2, _⟩
    · exact Or.inl (h2.trans h1)
    · exact Or.inl (h2 ▸ h1)
  · rcases hbc with h2 | ⟨h2, h2'⟩
    · exact Or.inl (h1 ▸ h2)
    · exact Or.inr ⟨h1.trans h2, charListLe_trans _ _ _ h1' h2'⟩

/-- Sort key order of `cmd_cold` (src/main.py, line 292): importer count
ascending, then depth descending, then module name ascending. -/
def coldLe (a b : ModuleMetrics) : Prop :=
  a.import_count < b.import_count ∨
    (a.import_count = b.import_count ∧
      (b.depth < a.depth ∨ (a.depth = b.depth ∧ strLe a.module b.module)))

instance : DecidableRel coldLe :=
  fun a b =>
    inferInstanceAs
      (Decidable
        (a.import_count < b.import_count ∨
          (a.import_count = b.import_count ∧
            (b.depth < a.depth ∨ (a.depth = b.depth ∧ strLe a.module b.module)))))

instance : IsTotal ModuleMetrics coldLe := by
  constructor
  intro a b
  rcases Nat.lt_trichotomy a.import_count b.import_count with h | h | h
  · exact Or.inl (Or.inl h)
  · rcases Nat.lt_trichotomy b.depth a.depth with h' | h' | h'
    · exact Or.inl (Or.inr ⟨h, Or.inl h'⟩)
    · rcases charListLe_total a.module.data b.module.data with h'' | h''
      · exact Or.inl (Or.inr ⟨h, Or.inr ⟨h'.symm, h''⟩⟩)
      · exact Or.inr (Or.inr ⟨h.symm, Or.inr ⟨h', h''⟩⟩)
    · exact Or.inr (Or.inr ⟨h.symm, Or.inl h'⟩)
  · exact Or.inr (Or.inl h)

instance : IsTrans ModuleMetrics coldLe := by
  constructor
  intro a b c hab hbc
  rcases hab with h1 | ⟨h1, h1'⟩
  · rcases hbc with h2 | ⟨h2, _⟩
    · exact Or.inl (h1.trans h2)
    · exact Or.inl (h2 ▸ h1)
  · rcases hbc with h2 | ⟨h2, h2'⟩
    · exact Or.inl (h1 ▸ h2)
    · refine Or.inr ⟨h1.trans h2, ?_⟩
      rcases h1' with h3 | ⟨h3, h3'⟩
      · rcases h2' with h4 | ⟨h4, _⟩
        · exact Or.inl (h4.trans h3)
        · exact Or.inl (h4 ▸ h3)
      · rcases h2' with h4 | ⟨h4, h4'⟩
        · exact Or.inl (h3 ▸ h4)
        · exact Or.inr ⟨h3.trans h4, charListLe_trans _ _ _ h3' h4'⟩

/-- The dead view (src/main.py, lines 279-280): modules never imported,
sorted by depth descending then module name (truncation to the result cap
happens in the presentation layer). -/
def deadView (results : List ModuleMetrics) : List ModuleMetrics :=
  List.insertionSort deadLe
    (results.filter (fun r => decide (r.import_count = 0)))

/-- The cold view (src/main.py, lines 287-292): modules with importer count
in `[1, max_imports]` and at least the minimum depth, sorted by importer
count ascending, depth descending, then module name. -/
def coldView (max_imports min_depth : Nat) (results : List ModuleMetrics) :
    List ModuleMetrics :=
  List.insertionSort coldLe
    (results.filter
      (fun r =>
        decide
          (1 ≤ r.import_count ∧ r.import_count ≤ max_imports ∧
            min_depth ≤ r.depth)))

/-- A file that counts as an importer of module `m`: it has a nonempty
canonical module name, that name differs from `m`, and its resolved
dependency set contains `m`. -/
def isOtherImporter (known_modules : Registry) (m : String)
    (f : SourceFile) : Bool :=
  decide
    (file_to_module_name f.path ≠ "" ∧ file_to_module_name f.path ≠ m ∧
      m ∈ parse_file_imports f.records (file_to_module_name f.path)
        known_modules)

/-- The path of the last file in `L` whose canonical module name is `m`
(`None` if there is none): the file that wins the registry slot for `m`. -/
def lastMatchPath (L : List SourceFile) (m : String) : Option RelPath :=
  L.foldl
    (fun acc f => if file_to_module_name f.path = m then some f.path else acc)
    none

/-- Replace the records of a file whose canonical module name is empty (the
root package initializer) with the empty record list, leaving every other
file unchanged. -/
def scrub (f : SourceFile) : SourceFile :=
  if file_to_module_name f.path = "" then ⟨f.path, []⟩ else f

/-- A tree with a root package initializer that imports `pkg`, a file
`pkg.py` shadowed by `pkg/__init__.py` for the name `pkg`, and the package
initializer `pkg/__init__.py` itself. -/
def exTreeC1 : List SourceFile :=
  [⟨["__init__.py"], [ImportRecord.direct ["pkg"]]⟩,
    ⟨["pkg.py"], [ImportRecord.direct ["pkg"]]⟩,
    ⟨["pkg", "__init__.py"], []⟩]

/-- The metrics row `analyze` produces for `pkg` in `exTreeC1`. -/
def exRowC1 : ModuleMetrics :=
  ⟨"pkg", "pkg/__init__.py", 1, 0, [], 0⟩

/-- The importer count claimed by C1, following its words literally: the
number of distinct root-relative paths of files other than module `m`'s
own registry file whose resolved dependency set contains `m`. -/
def claimedImporterCount (files : List SourceFile) (m : String) : Nat :=
  (((collect_python_files files).filter
      (fun f =>
        decide
          ((dictLookup (build_module_registry files) m).map pathStr ≠
              some (pathStr f.path) ∧
            m ∈ parse_file_imports f.records (file_to_module_name f.path)
              (build_module_registry files)))).map
    (fun f => pathStr f.path)).dedup.length

theorem mem_insertSet {l : List String} {x y : String} :
    x ∈ insertSet l y ↔ x = y ∨ x ∈ l := by
  unfold insertSet
  split_ifs with h
  · constructor
    · exact fun hx => Or.inr hx
    · rintro (rfl | hx)
      · exact h
      · exact hx
  · simp [List.mem_append, or_comm]

theorem insertSet_nodup {l : List String} {y : String} (h : l.Nodup) :
    (insertSet l y).Nodup := by
  unfold insertSet
  split_ifs with hy
  · exact h
  · refine List.Nodup.append h (List.nodup_singleton y) ?_
    intro a ha ha'
    rw [List.mem_singleton] at ha'
    subst ha'
    exact hy ha

theorem insertSet_idem (l : List String) (x : String) :
    insertSet (insertSet l x) x = insertSet l x := by
  have hx : x ∈ insertSet l x := mem_insertSet.mpr (Or.inl rfl)
  show (if x ∈ insertSet l x then insertSet l x else insertSet l x ++ [x]) =
    insertSet l x
  exact if_pos hx

theorem mem_foldl_insertSet :
    ∀ (l s : List String) (x : String),
      x ∈ l.foldl insertSet s ↔ x ∈ s ∨ x ∈ l
  | [], s, x => by simp
  | y :: l, s, x => by
    rw [List.foldl_cons, mem_foldl_insertSet l (insertSet s y) x,
      mem_insertSet, List.mem_cons]
    tauto

theorem nodup_foldl_insertSet :
    ∀ (l s : List String), s.Nodup → (l.foldl insertSet s).Nodup
  | [], _, h => h
  | _ :: l, _, h => nodup_foldl_insertSet l _ (insertSet_nodup h)

theorem length_eq_dedup_length {s l : List String} (hs : s.Nodup)
    (h : ∀ x, x ∈ s ↔ x ∈ l) : s.length = l.dedup.length := by
  have hp : List.Perm s l.dedup :=
    (List.perm_ext_iff_of_nodup hs (List.nodup_dedup l)).mpr
      (fun a => by rw [h, List.mem_dedup])
  exact hp.length_eq

theorem dictKeys_overwrite (d : Registry) (k : String) (v : RelPath) :
    dictKeys (d.map (fun p => if p.1 = k then (k, v) else p)) = dictKeys d := by
  unfold dictKeys
  rw [List.map_map]
  apply List.map_congr_left
  intro p _
  by_cases hp : p.1 = k
  · simp [hp]
  · simp [hp]

theorem dictKeys_dictInsert (d : Registry) (k : String) (v : RelPath) :
    dictKeys (dictInsert d k v) =
      if k ∈ dictKeys d then dictKeys d else dictKeys d ++ [k] := by
  unfold dictInsert
  split_ifs with h
  · rw [dictKeys_overwrite]
  · simp [dictKeys]

theorem mem_dictKeys_dictInsert {d : Registry} {k v x} :
    x ∈ dictKeys (dictInsert d k v) ↔ x ∈ dictKeys d ∨ x = k := by
  rw [dictKeys_dictInsert]
  split_ifs with h
  · constructor
    · exact Or.inl
    · rintro (hx | rfl)
      · exact hx
      · exact h
  · simp [List.mem_append]

theorem dictLookup_overwrite_self :
    ∀ (d : Registry) (k : String) (v : RelPath), k ∈ dictKeys d →
      dictLookup (d.map (fun p => if p.1 = k then (k, v) else p)) k = some v
  | [], k, v, h => by simp [dictKeys] at h
  | p :: d, k, v, h => by
    by_cases hp : p.1 = k
    · simp [dictLookup, hp]
    · have hk : k ∈ dictKeys d := by
        rcases List.mem_cons.mp h with h' | h'
        · exact absurd h'.symm hp
        · exact h'
      simp only [List.map_cons, dictLookup, if_neg hp]
      exact dictLookup_overwrite_self d k v hk

theorem dictLookup_overwrite_ne :
    ∀ (d : Registry) (k k' : String) (v : RelPath), k' ≠ k →
      dictLookup (d.map (fun p => if p.1 = k then (k, v) else p)) k' =
        dictLookup d k'
  | [], _, _, _, _ => rfl
  | p :: d, k, k', v, h => by
    by_cases hp : p.1 = k
    · simp only [List.map_cons, if_pos hp, dictLookup, if_neg (Ne.symm h),
        if_neg (hp ▸ (Ne.symm h) : ¬p.1 = k')]
      exact dictLookup_overwrite_ne d k k' v h
    · simp only [List.map_cons, if_neg hp, dictLookup]
      by_cases hpk : p.1 = k'
      · simp [hpk]
      · simp only [if_neg hpk]
        exact dictLookup_overwrite_ne d k k' v h

theorem dictLookup_append_self :
    ∀ (d : Registry) (k : String) (v : RelPath), k ∉ dictKeys d →
      dictLookup (d ++ [(k, v)]) k = some v
  | [], k, v, _ => by simp [dictLookup]
  | p :: d, k, v, h => by
    have hp : p.1 ≠ k := fun hp => h (by simp [dictKeys, hp])
    simp only [List.cons_append, dictLookup, if_neg hp]
    exact dictLookup_append_self d k v (fun hk => h (by simp [dictKeys] at hk ⊢; exact Or.inr hk))

theorem dictLookup_append_ne :
    ∀ (d : Registry) (k k' : String) (v : RelPath), k' ≠ k →
      dictLookup (d ++ [(k, v)]) k' = dictLookup d k'
  | [], k, k', v, h => by simp [dictLookup, Ne.symm h]
  | p :: d, k, k', v, h => by
    simp only [List.cons_append, dictLookup]
    by_cases hp : p.1 = k'
    · simp [hp]
    · simp only [if_neg hp]
      exact dictLookup_append_ne d k k' v h

theorem dictLookup_dictInsert_self (d : Registry) (k : String) (v : RelPath) :
    dictLookup (dictInsert d k v) k = some v := by
  unfold dictInsert
  split_ifs with h
  · exact dictLookup_overwrite_self d k v h
  · exact dictLookup_append_self d k v h

theorem dictLookup_dictInsert_ne (d : Registry) {k k' : String} (v : RelPath)
    (h : k' ≠ k) : dictLookup (dictInsert d k v) k' = dictLookup d k' := by
  unfold dictInsert
  split_ifs with hm
  · exact dictLookup_overwrite_ne d k k' v h
  · exact dictLookup_append_ne d k k' v h

theorem dictLookup_of_mem :
    ∀ (d : Registry) (k : String) (v : RelPath), (k, v) ∈ d →
      (dictKeys d).Nodup → dictLookup d k = some v
  | [], k, v, h, _ => absurd h (List.not_mem_nil _)
  | p :: d, k, v, h, hnd => by
    rcases List.mem_cons.mp h with rfl | h'
    · simp [dictLookup]
    · have hk : k ∈ dictKeys d := List.mem_map.mpr ⟨(k, v), h', rfl⟩
      have hp : p.1 ≠ k := by
        intro hp
        have : p.1 ∉ dictKeys d := (List.nodup_cons.mp hnd).1
        exact this (hp ▸ hk)
      simp only [dictLookup, if_neg hp]
      exact dictLookup_of_mem d k v h' (List.nodup_cons.mp hnd).2

theorem dictKeys_addImporter (imps : ImporterIndex) (mod rel : String) :
    dictKeys (addImporter imps mod rel) = dictKeys imps := by
  unfold addImporter
  split_ifs with h
  · unfold dictKeys
    rw [List.map_map]
    apply List.map_congr_left
    intro p _
    by_cases hp : p.1 = mod
    · simp [hp]
    · simp [hp]
  · rfl

theorem indexLookup_overwrite_self :
    ∀ (imps : ImporterIndex) (mod rel : String), mod ∈ dictKeys imps →
      indexLookup
          (imps.map
            (fun p => if p.1 = mod then (p.1, insertSet p.2 rel) else p)) mod =
        insertSet (indexLookup imps mod) rel
  | [], mod, rel, h => by simp [dictKeys] at h
  | p :: imps, mod, rel, h => by
    by_cases hp : p.1 = mod
    · simp [indexLookup, hp]
    · have hk : mod ∈ dictKeys imps := by
        rcases List.mem_cons.mp h with h' | h'
        · exact absurd h'.symm hp
        · exact h'
      simp only [List.map_cons, if_neg hp, indexLookup]
      exact indexLookup_overwrite_self imps mod rel hk

theorem indexLookup_overwrite_ne :
    ∀ (imps : ImporterIndex) (mod rel k : String), k ≠ mod →
      indexLookup
          (imps.map
            (fun p => if p.1 = mod then (p.1, insertSet p.2 rel) else p)) k =
        indexLookup imps k
  | [], _, _, _, _ => rfl
  | p :: imps, mod, rel, k, h => by
    by_cases hp : p.1 = mod
    · have hpk : ¬p.1 = k := by
        rw [hp]
        exact Ne.symm h
      simp only [List.map_cons, if_pos hp, indexLookup, if_neg hpk]
      exact indexLookup_overwrite_ne imps mod rel k h
    · simp only [List.map_cons, if_neg hp, indexLookup]
      by_cases hpk : p.1 = k
      · simp [hpk]
      · simp only [if_neg hpk]
        exact indexLookup_overwrite_ne imps mod rel k h

theorem indexLookup_addImporter_self {imps : ImporterIndex} {mod rel : String}
    (h : mod ∈ dictKeys imps) :
    indexLookup (addImporter imps mod rel) mod =
      insertSet (indexLookup imps mod) rel := by
  unfold addImporter
  rw [if_pos h]
  exact indexLookup_overwrite_self imps mod rel h

theorem indexLookup_addImporter_ne (imps : ImporterIndex)
    {mod rel k : String} (h : k ≠ mod) :
    indexLookup (addImporter imps mod rel) k = indexLookup imps k := by
  unfold addImporter
  split_ifs with hm
  · exact indexLookup_overwrite_ne imps mod rel k h
  · rfl

theorem dictKeys_recordEdge (cur rel : String) (imps : ImporterIndex)
    (mod : String) :
    dictKeys (recordEdge cur rel imps mod) = dictKeys imps := by
  unfold recordEdge
  split_ifs with h
  · rfl
  · exact dictKeys_addImporter imps mod rel

theorem dictKeys_foldl_recordEdge (cur rel : String) :
    ∀ (l : List String) (imps : ImporterIndex),
      dictKeys (l.foldl (recordEdge cur rel) imps) = dictKeys imps
  | [], _ => rfl
  | mod :: l, imps => by
    rw [List.foldl_cons, dictKeys_foldl_recordEdge cur rel l,
      dictKeys_recordEdge]

theorem indexLookup_foldl_recordEdge (cur rel k : String) :
    ∀ (l : List String) (imps : ImporterIndex), k ∈ dictKeys imps →
      indexLookup (l.foldl (recordEdge cur rel) imps) k =
        if k ∈ l ∧ k ≠ cur then insertSet (indexLookup imps k) rel
        else indexLookup imps k
  | [], imps, _ => by simp
  | mod :: l, imps, hk => by
    rw [List.foldl_cons,
      indexLookup_foldl_recordEdge cur rel k l (recordEdge cur rel imps mod)
        (by rw [dictKeys_recordEdge]; exact hk)]
    by_cases hmc : mod = cur
    · have hrec : recordEdge cur rel imps mod = imps := by
        unfold recordEdge
        rw [if_pos hmc]
      rw [hrec]
      by_cases hkl : k ∈ l ∧ k ≠ cur
      · rw [if_pos hkl, if_pos ⟨List.mem_cons_of_mem mod hkl.1, hkl.2⟩]
      · rw [if_neg hkl]
        by_cases hkm : k ∈ mod :: l ∧ k ≠ cur
        · rcases List.mem_cons.mp hkm.1 with rfl | hkl'
          · exact absurd hmc hkm.2
          · exact absurd ⟨hkl', hkm.2⟩ hkl
        · rw [if_neg hkm]
    · have hrec : recordEdge cur rel imps mod = addImporter imps mod rel := by
        unfold recordEdge
        rw [if_neg hmc]
      rw [hrec]
      by_cases hkmod : k = mod
      · subst hkmod
        rw [indexLookup_addImporter_self hk]
        by_cases hkl : k ∈ l ∧ k ≠ cur
        · rw [if_pos hkl, insertSet_idem,
            if_pos ⟨List.mem_cons_self k l, hmc⟩]
        · rw [if_neg hkl, if_pos ⟨List.mem_cons_self k l, hmc⟩]
      · rw [indexLookup_addImporter_ne imps hkmod]
        by_cases hkl : k ∈ l ∧ k ≠ cur
        · rw [if_pos hkl, if_pos ⟨List.mem_cons_of_mem mod hkl.1, hkl.2⟩]
        · rw [if_neg hkl]
          by_cases hkm : k ∈ mod :: l ∧ k ≠ cur
          · rcases List.mem_cons.mp hkm.1 with rfl | hkl'
            · exact absurd rfl hkmod
            · exact absurd ⟨hkl', hkm.2⟩ hkl
          · rw [if_neg hkm]

theorem dictKeys_processFile (known_modules : Registry)
    (imps : ImporterIndex) (f : SourceFile) :
    dictKeys (processFile known_modules imps f) = dictKeys imps := by
  by_cases h : file_to_module_name f.path = ""
  · simp only [processFile, if_pos h]
  · simp only [processFile, if_neg h]
    exact dictKeys_foldl_recordEdge _ _ _ _

theorem indexLookup_processFile (known_modules : Registry)
    (imps : ImporterIndex) (f : SourceFile) (k : String)
    (hk : k ∈ dictKeys imps) :
    indexLookup (processFile known_modules imps f) k =
      if isOtherImporter known_modules k f = true then
        insertSet (indexLookup imps k) (pathStr f.path)
      else indexLookup imps k := by
  by_cases hname : file_to_module_name f.path = ""
  · simp only [processFile, if_pos hname]
    have : isOtherImporter known_modules k f = false := by
      simp [isOtherImporter, hname]
    rw [this]
    simp
  · simp only [processFile, if_neg hname]
    rw [indexLookup_foldl_recordEdge _ _ k _ imps hk]
    by_cases hcond :
        k ∈ parse_file_imports f.records (file_to_module_name f.path)
            known_modules ∧
          k ≠ file_to_module_name f.path
    · rw [if_pos hcond]
      have : isOtherImporter known_modules k f = true := by
        simp only [isOtherImporter, decide_eq_true_eq]
        exact ⟨hname, Ne.symm hcond.2, hcond.1⟩
      rw [this]
      simp
    · rw [if_neg hcond]
      have : isOtherImporter known_modules k f = false := by
        simp only [isOtherImporter, decide_eq_false_iff_not, not_and]
        intro _ hne hmem
        exact hcond ⟨hmem, Ne.symm hne⟩
      rw [this]
      simp

theorem dictKeys_foldl_processFile (known_modules : Registry) :
    ∀ (L : List SourceFile) (imps : ImporterIndex),
      dictKeys (L.foldl (processFile known_modules) imps) = dictKeys imps
  | [], _ => rfl
  | f :: L, imps => by
    rw [List.foldl_cons, dictKeys_foldl_processFile known_modules L,
      dictKeys_processFile]

theorem indexLookup_foldl_processFile (known_modules : Registry) (k : String) :
    ∀ (L : List SourceFile) (imps : ImporterIndex), k ∈ dictKeys imps →
      indexLookup (L.foldl (processFile known_modules) imps) k =
        ((L.filter (fun f => isOtherImporter known_modules k f)).map
            (fun f => pathStr f.path)).foldl
          insertSet (indexLookup imps k)
  | [], imps, _ => by simp
  | f :: L, imps, hk => by
    rw [List.foldl_cons,
      indexLookup_foldl_processFile known_modules k L
        (processFile known_modules imps f)
        (by rw [dictKeys_processFile]; exact hk)]
    rw [indexLookup_processFile known_modules imps f k hk]
    by_cases hf : isOtherImporter known_modules k f = true
    · rw [if_pos hf, List.filter_cons_of_pos hf, List.map_cons,
        List.foldl_cons]
    · rw [if_neg hf, List.filter_cons_of_neg (by simpa using hf)]

theorem indexLookup_init (known_modules : Registry) (k : String) :
    indexLookup (known_modules.map (fun p => (p.1, []))) k = [] := by
  induction known_modules with
  | nil => rfl
  | cons p d ih =>
    simp only [List.map_cons, indexLookup]
    split_ifs
    · rfl
    · exact ih

theorem dictKeys_init (known_modules : Registry) :
    dictKeys (known_modules.map (fun p => (p.1, ([] : List String)))) =
      dictKeys known_modules := by
  unfold dictKeys
  rw [List.map_map]
  rfl

theorem indexLookup_build_importer_index (known_modules : Registry)
    (files : List SourceFile) (k : String)
    (hk : k ∈ dictKeys known_modules) :
    indexLookup (build_importer_index known_modules files) k =
      (((collect_python_files files).filter
            (fun f => isOtherImporter known_modules k f)).map
          (fun f => pathStr f.path)).foldl
        insertSet [] := by
  unfold build_importer_index
  rw [indexLookup_foldl_processFile known_modules k _ _
    (by rw [dictKeys_init]; exact hk)]
  rw [indexLookup_init]

theorem dictKeys_build_importer_index (known_modules : Registry)
    (files : List SourceFile) :
    dictKeys (build_importer_index known_modules files) =
      dictKeys known_modules := by
  unfold build_importer_index
  rw [dictKeys_foldl_processFile, dictKeys_init]

theorem nodup_dictKeys_foldl_registerFile :
    ∀ (L : List SourceFile) (d : Registry), (dictKeys d).Nodup →
      (dictKeys (L.foldl registerFile d)).Nodup
  | [], _, h => h
  | f :: L, d, h => by
    rw [List.foldl_cons]
    refine nodup_dictKeys_foldl_registerFile L _ ?_
    by_cases hname : file_to_module_name f.path = ""
    · simpa only [registerFile, hname, ne_eq, not_true_eq_false,
        if_false] using h
    · simp only [registerFile, if_pos hname]
      rw [dictKeys_dictInsert]
      split_ifs with hk
      · exact h
      · refine List.Nodup.append h (List.nodup_singleton _) ?_
        intro a ha ha'
        rw [List.mem_singleton] at ha'
        subst ha'
        exact hk ha

theorem nodup_dictKeys_registry (files : List SourceFile) :
    (dictKeys (build_module_registry files)).Nodup :=
  nodup_dictKeys_foldl_registerFile _ [] List.nodup_nil

theorem no_empty_dictKeys_foldl_registerFile :
    ∀ (L : List SourceFile) (d : Registry), "" ∉ dictKeys d →
      "" ∉ dictKeys (L.foldl registerFile d)
  | [], _, h => h
  | f :: L, d, h => by
    rw [List.foldl_cons]
    refine no_empty_dictKeys_foldl_registerFile L _ ?_
    by_cases hname : file_to_module_name f.path = ""
    · simpa only [registerFile, hname, ne_eq, not_true_eq_false,
        if_false] using h
    · simp only [registerFile, if_pos hname]
      intro hmem
      rcases mem_dictKeys_dictInsert.mp hmem with hd | he
      · exact h hd
      · exact hname he.symm

theorem no_empty_dictKeys_registry (files : List SourceFile) :
    "" ∉ dictKeys (build_module_registry files) :=
  no_empty_dictKeys_foldl_registerFile _ []
    (by simp [dictKeys])

theorem dictLookup_foldl_registerFile (m : String) (hm : m ≠ "") :
    ∀ (L : List SourceFile) (d : Registry),
      dictLookup (L.foldl registerFile d) m =
        L.foldl
          (fun acc f =>
            if file_to_module_name f.path = m then some f.path else acc)
          (dictLookup d m)
  | [], _ => rfl
  | f :: L, d => by
    rw [List.foldl_cons, List.foldl_cons,
      dictLookup_foldl_registerFile m hm L (registerFile d f)]
    congr 1
    by_cases hname : file_to_module_name f.path = ""
    · have hne : ¬file_to_module_name f.path = m := by
        rw [hname]
        exact fun hc => hm hc.symm
      simp only [registerFile, hname, ne_eq, not_true_eq_false, if_false]
      rw [if_neg (fun hc : "" = m => hm hc.symm)]
    · simp only [registerFile, if_pos hname]
      by_cases hnm : file_to_module_name f.path = m
      · rw [if_pos hnm, hnm, dictLookup_dictInsert_self]
      · rw [if_neg hnm,
          dictLookup_dictInsert_ne d _ (fun hc => hnm hc.symm)]

theorem registry_lookup_lastMatch (files : List SourceFile) (m : String)
    (hm : m ≠ "") :
    dictLookup (build_module_registry files) m =
      lastMatchPath (collect_python_files files) m := by
  unfold build_module_registry lastMatchPath
  rw [dictLookup_foldl_registerFile m hm]
  rfl

theorem mem_foldl_relStepBase (known_modules : Registry) (base : String) :
    ∀ (names acc : List String) (x : String),
      x ∈ names.foldl (relStepBase known_modules base) acc →
        x ∈ acc ∨ x = base ∨
          ∃ n ∈ names, n ≠ "*" ∧ x = base ++ "." ++ n
  | [], _, _, h => Or.inl h
  | n :: names, acc, x, h => by
    rw [List.foldl_cons] at h
    rcases mem_foldl_relStepBase known_modules base names _ x h with
      hacc | hbase | ⟨n', hn', hne, hx⟩
    · unfold relStepBase at hacc
      split_ifs at hacc with h1 h2
      · rcases mem_insertSet.mp hacc with rfl | hacc'
        · exact Or.inr (Or.inr ⟨n, List.mem_cons_self n names, h1.1, rfl⟩)
        · exact Or.inl hacc'
      · rcases mem_insertSet.mp hacc with rfl | hacc'
        · exact Or.inr (Or.inl rfl)
        · exact Or.inl hacc'
      · exact Or.inl hacc
    · exact Or.inr (Or.inl hbase)
    · exact Or.inr
        (Or.inr ⟨n', List.mem_cons_of_mem n hn', hne, hx⟩)

theorem subset_foldl_relStepBase (known_modules : Registry) (base : String) :
    ∀ (names acc : List String) (x : String),
      x ∈ names.foldl (relStepBase known_modules base) acc →
        x ∈ acc ∨ x ∈ dictKeys known_modules
  | [], _, _, h => Or.inl h
  | n :: names, acc, x, h => by
    rw [List.foldl_cons] at h
    rcases subset_foldl_relStepBase known_modules base names _ x h with
      hacc | hknown
    · unfold relStepBase at hacc
      split_ifs at hacc with h1 h2
      · rcases mem_insertSet.mp hacc with rfl | hacc'
        · exact Or.inr h1.2
        · exact Or.inl hacc'
      · rcases mem_insertSet.mp hacc with rfl | hacc'
        · exact Or.inr h2
        · exact Or.inl hacc'
      · exact Or.inl hacc
    · exact Or.inr hknown

theorem mem_foldl_relStepNoBase (known_modules : Registry)
    (anchor_parts : List String) :
    ∀ (names acc : List String) (x : String),
      x ∈ names.foldl (relStepNoBase known_modules anchor_parts) acc →
        x ∈ acc ∨
          ∃ n ∈ names,
            x = joinDots (anchor_parts ++ [n]) ∧ x ∈ dictKeys known_modules
  | [], _, _, h => Or.inl h
  | n :: names, acc, x, h => by
    rw [List.foldl_cons] at h
    rcases mem_foldl_relStepNoBase known_modules anchor_parts names _ x h with
      hacc | ⟨n', hn', hx, hk⟩
    · unfold relStepNoBase at hacc
      split_ifs at hacc with h1
      · rcases mem_insertSet.mp hacc with rfl | hacc'
        · exact Or.inr ⟨n, List.mem_cons_self n names, rfl, h1⟩
        · exact Or.inl hacc'
      · exact Or.inl hacc
    · exact Or.inr ⟨n', List.mem_cons_of_mem n hn', hx, hk⟩

theorem mem_foldl_absStep (known_modules : Registry) (m : String) :
    ∀ (names acc : List String) (x : String),
      x ∈ names.foldl (absStep known_modules m) acc ↔
        x ∈ acc ∨
          (∃ n ∈ names,
            x = m ++ "." ++ n ∧ x ∈ dictKeys known_modules) ∨
          (x = m ∧ m ∈ dictKeys known_modules ∧
            ∃ n ∈ names, (m ++ "." ++ n) ∉ dictKeys known_modules)
  | [], acc, x => by simp
  | n :: names, acc, x => by
    rw [List.foldl_cons, mem_foldl_absStep known_modules m names _ x,
      List.exists_mem_cons_iff, List.exists_mem_cons_iff]
    unfold absStep
    split_ifs with h1 h2
    · rw [mem_insertSet]
      constructor
      · rintro ((rfl | hacc) | hrest | hself)
        · exact Or.inr (Or.inl (Or.inl ⟨rfl, h1⟩))
        · exact Or.inl hacc
        · exact Or.inr (Or.inl (Or.inr hrest))
        · exact Or.inr (Or.inr ⟨hself.1, hself.2.1, Or.inr hself.2.2⟩)
      · rintro (hacc | (⟨hx, _⟩ | hrest) | ⟨rfl, hm, habs | hrest⟩)
        · exact Or.inl (Or.inr hacc)
        · exact Or.inl (Or.inl hx)
        · exact Or.inr (Or.inl hrest)
        · exact absurd h1 habs
        · exact Or.inr (Or.inr ⟨rfl, hm, hrest⟩)
    · rw [mem_insertSet]
      constructor
      · rintro ((rfl | hacc) | hrest | hself)
        · exact Or.inr (Or.inr ⟨rfl, h2, Or.inl h1⟩)
        · exact Or.inl hacc
        · exact Or.inr (Or.inl (Or.inr hrest))
        · exact Or.inr (Or.inr ⟨hself.1, hself.2.1, Or.inr hself.2.2⟩)
      · rintro (hacc | (⟨hx, hxk⟩ | hrest) | ⟨rfl, hm, _⟩)
        · exact Or.inl (Or.inr hacc)
        · exact absurd (hx ▸ hxk) h1
        · exact Or.inr (Or.inl hrest)
        · exact Or.inl (Or.inl rfl)
    · constructor
      · rintro (hacc | hrest | hself)
        · exact Or.inl hacc
        · exact Or.inr (Or.inl (Or.inr hrest))
        · exact Or.inr (Or.inr ⟨hself.1, hself.2.1, Or.inr hself.2.2⟩)
      · rintro (hacc | (⟨hx, hxk⟩ | hrest) | ⟨rfl, hm, _⟩)
        · exact Or.inl hacc
        · exact absurd (hx ▸ hxk) h1
        · exact Or.inr (Or.inl hrest)
        · exact absurd hm h2

theorem scrub_path (f : SourceFile) : (scrub f).path = f.path := by
  unfold scrub
  split_ifs <;> rfl

theorem collect_map_scrub (files : List SourceFile) :
    collect_python_files (files.map scrub) =
      (collect_python_files files).map scrub := by
  unfold collect_python_files
  refine (List.map_insertionSort fileLe fileLe scrub files ?_).symm
  intro a _ b _
  unfold fileLe
  rw [scrub_path, scrub_path]

theorem registerFile_scrub (d : Registry) (f : SourceFile) :
    registerFile d (scrub f) = registerFile d f := by
  unfold scrub
  split_ifs <;> rfl

theorem registry_map_scrub (files : List SourceFile) :
    build_module_registry (files.map scrub) = build_module_registry files := by
  unfold build_module_registry
  rw [collect_map_scrub, List.foldl_map]
  have hstep : (fun (d : Registry) (f : SourceFile) => registerFile d (scrub f)) =
      registerFile :=
    funext fun d => funext fun f => registerFile_scrub d f
  rw [hstep]

theorem processFile_scrub (known_modules : Registry) (imps : ImporterIndex)
    (f : SourceFile) :
    processFile known_modules imps (scrub f) = processFile known_modules imps f := by
  unfold scrub
  split_ifs with h
  · show (if file_to_module_name f.path = "" then imps else _) =
      (if file_to_module_name f.path = "" then imps else _)
    rw [if_pos h, if_pos h]
  · rfl

theorem index_map_scrub (known_modules : Registry) (files : List SourceFile) :
    build_importer_index known_modules (files.map scrub) =
      build_importer_index known_modules files := by
  unfold build_importer_index
  rw [collect_map_scrub, List.foldl_map]
  have hstep :
      (fun (imps : ImporterIndex) (f : SourceFile) =>
          processFile known_modules imps (scrub f)) =
        processFile known_modules :=
    funext fun imps => funext fun f => processFile_scrub known_modules imps f
  rw [hstep]

theorem searchCandidates_some (known_modules : Registry)
    (name_parts : List String) :
    ∀ (i : Nat) (b : String),
      searchCandidates known_modules name_parts i = some b →
        ∃ k, 1 ≤ k ∧ k ≤ i ∧ b = joinDots (name_parts.take k) ∧
          b ∈ dictKeys known_modules ∧
          ∀ j, k < j → j ≤ i →
            joinDots (name_parts.take j) ∉ dictKeys known_modules
  | 0, b, h => by simp [searchCandidates] at h
  | i + 1, b, h => by
    unfold searchCandidates at h
    split_ifs at h with hk
    · rw [Option.some_inj] at h
      subst h
      refine ⟨i + 1, Nat.succ_le_succ (Nat.zero_le i), Nat.le_refl _, rfl,
        hk, ?_⟩
      intro j hj hj'
      exact absurd (Nat.lt_of_lt_of_le hj hj') (Nat.lt_irrefl (i + 1))
    · rcases searchCandidates_some known_modules name_parts i b h with
        ⟨k, hk1, hki, hbk, hknown, hmax⟩
      refine ⟨k, hk1, Nat.le_succ_of_le hki, hbk, hknown, ?_⟩
      intro j hj hj'
      rcases Nat.lt_or_ge j (i + 1) with hji | hji
      · exact hmax j hj (Nat.lt_succ_iff.mp hji)
      · have : j = i + 1 := Nat.le_antisymm hj' hji
        subst this
        exact hk

theorem searchCandidates_none (known_modules : Registry)
    (name_parts : List String) :
    ∀ (i : Nat), searchCandidates known_modules name_parts i = none →
      ∀ j, 1 ≤ j → j ≤ i →
        joinDots (name_parts.take j) ∉ dictKeys known_modules
  | 0, _, j, hj, hj' => by omega
  | i + 1, h, j, hj, hj' => by
    unfold searchCandidates at h
    split_ifs at h with hk
    · rcases Nat.lt_or_ge j (i + 1) with hji | hji
      · exact searchCandidates_none known_modules name_parts i h j hj
          (Nat.lt_succ_iff.mp hji)
      · have : j = i + 1 := Nat.le_antisymm hj' hji
        subst this
        exact hk

theorem dropLastPy_eq_take (l : List String) (k : Nat) (hk : k ≠ 0) :
    dropLastPy l k = l.take (l.length - k) := by
  unfold dropLastPy
  rw [if_neg hk]

theorem insertSet_of_mem {l : List String} {x : String} (h : x ∈ l) :
    insertSet l x = l := by
  unfold insertSet
  exact if_pos h

theorem mem_acc_foldl_relStepBase (known_modules : Registry) (base : String) :
    ∀ (names acc : List String) (x : String), x ∈ acc →
      x ∈ names.foldl (relStepBase known_modules base) acc
  | [], _, _, h => h
  | n :: names, acc, x, h => by
    rw [List.foldl_cons]
    refine mem_acc_foldl_relStepBase known_modules base names _ x ?_
    unfold relStepBase
    split_ifs
    · exact mem_insertSet.mpr (Or.inr h)
    · exact mem_insertSet.mpr (Or.inr h)
    · exact h

theorem wildcard_foldl_relStepBase (known_modules : Registry) (base : String)
    (hbase : base ∈ dictKeys known_modules) :
    ∀ (names acc : List String), "*" ∈ names →
      base ∈ names.foldl (relStepBase known_modules base) acc
  | [], _, h => absurd h (List.not_mem_nil "*")
  | n :: names, acc, h => by
    rw [List.foldl_cons]
    by_cases hn : n = "*"
    · subst hn
      refine mem_acc_foldl_relStepBase known_modules base names _ base ?_
      unfold relStepBase
      rw [if_neg (fun hc => hc.1 rfl), if_pos hbase]
      exact mem_insertSet.mpr (Or.inl rfl)
    · rcases List.mem_cons.mp h with hc | hmem
      · exact absurd hc.symm hn
      · exact wildcard_foldl_relStepBase known_modules base hbase names _ hmem

theorem foldl_absStep_of_all_unknown (known_modules : Registry) (m : String)
    (hm : m ∈ dictKeys known_modules) :
    ∀ (names acc : List String),
      (∀ n ∈ names, (m ++ "." ++ n) ∉ dictKeys known_modules) → m ∈ acc →
      names.foldl (absStep known_modules m) acc = acc
  | [], _, _, _ => rfl
  | n :: names, acc, hall, hacc => by
    rw [List.foldl_cons]
    have hstep : absStep known_modules m acc n = acc := by
      unfold absStep
      rw [if_neg (hall n (List.mem_cons_self n names)), if_pos hm,
        insertSet_of_mem hacc]
    rw [hstep]
    exact foldl_absStep_of_all_unknown known_modules m hm names acc
      (fun n' hn' => hall n' (List.mem_cons_of_mem n hn')) hacc

theorem allstar_foldl_relStepNoBase (known_modules : Registry)
    (anchor_parts : List String)
    (hcand : joinDots (anchor_parts ++ ["*"]) ∉ dictKeys known_modules) :
    ∀ (names acc : List String), (∀ n ∈ names, n = "*") →
      names.foldl (relStepNoBase known_modules anchor_parts) acc = acc
  | [], _, _ => rfl
  | n :: names, acc, hall => by
    rw [List.foldl_cons]
    have hn : n = "*" := hall n (List.mem_cons_self n names)
    subst hn
    have hstep : relStepNoBase known_modules anchor_parts acc "*" = acc := by
      unfold relStepNoBase
      rw [if_neg hcand]
    rw [hstep]
    exact allstar_foldl_relStepNoBase known_modules anchor_parts hcand names acc
      (fun n' hn' => hall n' (List.mem_cons_of_mem _ hn'))

/-- C2: for a from-style relative import (level ≥ 1) resolved against an
an importing module with S dotted segments, resolution yields nothing
when S < level (no edge, no exception); otherwise the anchor is the first
S - level segments of the importing module's name and every resolved module
is formed from that anchor: anchor + base segments (optionally + one
one imported name) when a base is present, anchor + the name when it
is not. -/
theorem relative_level_anchor_spec (level : Nat) (module : Option String)
    (names : List String) (current_module : String)
    (known_modules : Registry) (hlevel : 1 ≤ level) :
    ((dotSplit current_module).length < level →
      resolve_relative_import level module names current_module
        known_modules = []) ∧
    (level ≤ (dotSplit current_module).length →
      ∀ x ∈ resolve_relative_import level module names current_module
          known_modules,
        (∃ m, module = some m ∧
          (x = joinDots ((dotSplit current_module).take
              ((dotSplit current_module).length - level) ++ dotSplit m) ∨
            ∃ n ∈ names, n ≠ "*" ∧
              x = joinDots ((dotSplit current_module).take
                  ((dotSplit current_module).length - level) ++ dotSplit m) ++
                "." ++ n)) ∨
        (module = none ∧ ∃ n ∈ names,
          x = joinDots ((dotSplit current_module).take
              ((dotSplit current_module).length - level) ++ [n]))) := by
  constructor
  · intro hlt
    simp only [resolve_relative_import, if_pos hlt]
  · intro hle x hx
    simp only [resolve_relative_import, if_neg (not_lt.mpr hle)] at hx
    rw [dropLastPy_eq_take (dotSplit current_module) level (by omega)] at hx
    cases module with
    | some m =>
      rcases mem_foldl_relStepBase _ _ names [] x hx with hacc | hbase | hsub
      · exact absurd hacc (List.not_mem_nil x)
      · exact Or.inl ⟨m, rfl, Or.inl hbase⟩
      · exact Or.inl ⟨m, rfl, Or.inr hsub⟩
    | none =>
      rcases mem_foldl_relStepNoBase _ _ names [] x hx with hacc | ⟨n, hn, hx', _⟩
      · exact absurd hacc (List.not_mem_nil x)
      · exact Or.inr ⟨rfl, n, hn, hx'⟩

/-- C2 witness: a relative import whose level (2) exceeds the importing
module's single segment resolves to nothing. -/
theorem relative_level_anchor_spec_witness :
    resolve_relative_import 2 none ["n"] "a" [("n", ["n.py"])] = [] :=
  (relative_level_anchor_spec 2 none ["n"] "a" [("n", ["n.py"])]
    (by decide)).1 (by decide)

/-- C3 counterexample: in a relative from-style import with a base module
and a valid anchor, the wildcard name alone does resolve the base module:
with importing module `pkg.x`, level 1, base `b` and known module `pkg.b`,
the single imported name `*` resolves to `pkg.b`, contradicting the claim
that a wildcard contributes nothing on its own. -/
theorem relative_wildcard_counterexample :
    resolve_relative_import 1 (some "b") ["*"] "pkg.x"
      [("pkg.b", ["pkg", "b.py"])] = ["pkg.b"] := by decide

/-- C3 (amended): for a relative from-style import with a base module and a
valid anchor, a wildcard imported name is never tried as `basepath.name`,
but it does fall back to `basepath` itself whenever `basepath` is known —
exactly like a name whose submodule candidate is unknown. In particular a
wildcard-only name list resolves to `[basepath]` when `basepath` is known
and to nothing otherwise. -/
theorem relative_wildcard_fallback (level : Nat) (m current_module : String)
    (known_modules : Registry) (_hlevel : 1 ≤ level)
    (hdepth : level ≤ (dotSplit current_module).length) :
    (resolve_relative_import level (some m) ["*"] current_module
        known_modules =
      if joinDots (dropLastPy (dotSplit current_module) level ++ dotSplit m) ∈
          dictKeys known_modules then
        [joinDots (dropLastPy (dotSplit current_module) level ++ dotSplit m)]
      else []) ∧
    (∀ names : List String, "*" ∈ names →
      joinDots (dropLastPy (dotSplit current_module) level ++ dotSplit m) ∈
        dictKeys known_modules →
      joinDots (dropLastPy (dotSplit current_module) level ++ dotSplit m) ∈
        resolve_relative_import level (some m) names current_module
          known_modules) := by
  constructor
  · simp only [resolve_relative_import, if_neg (not_lt.mpr hdepth),
      List.foldl_cons, List.foldl_nil, relStepBase]
    rw [if_neg (fun hc => hc.1 rfl)]
    split_ifs with h
    · rfl
    · rfl
  · intro names hstar hknown
    simp only [resolve_relative_import, if_neg (not_lt.mpr hdepth)]
    exact wildcard_foldl_relStepBase known_modules _ hknown names [] hstar

/-- C3 amended-claim witness: with base known, a wildcard-only relative
relative import resolves to exactly the base path. -/
theorem relative_wildcard_fallback_witness :
    resolve_relative_import 1 (some "b") ["*"] "pkg.x"
        [("pkg.b", ["pkg", "b.py"])] =
      if joinDots (dropLastPy (dotSplit "pkg.x") 1 ++ dotSplit "b") ∈
          dictKeys [("pkg.b", ["pkg", "b.py"])] then
        [joinDots (dropLastPy (dotSplit "pkg.x") 1 ++ dotSplit "b")]
      else [] :=
  (relative_wildcard_fallback 1 "b" "pkg.x" [("pkg.b", ["pkg", "b.py"])]
    (by decide) (by decide)).1

/-- C4: a direct import of a dotted name searches its prefixes from the most
specific to the least specific and resolves to the first one in the
Known-Module Set (which never contains the empty name); when no prefix is
known the import contributes nothing. -/
theorem direct_import_most_specific (name : String)
    (known_modules : Registry) (imported : List String)
    (hne : "" ∉ dictKeys known_modules) :
    (∀ b, firstKnownCandidate name known_modules = some b →
      b ∈ dictKeys known_modules ∧
      handle_direct_name known_modules imported name = insertSet imported b ∧
      ∃ k, 1 ≤ k ∧ k ≤ (dotSplit name).length ∧
        b = joinDots ((dotSplit name).take k) ∧
        ∀ j, k < j → j ≤ (dotSplit name).length →
          joinDots ((dotSplit name).take j) ∉ dictKeys known_modules) ∧
    (firstKnownCandidate name known_modules = none →
      (∀ j, 1 ≤ j → j ≤ (dotSplit name).length →
        joinDots ((dotSplit name).take j) ∉ dictKeys known_modules) ∧
      handle_direct_name known_modules imported name = imported) := by
  constructor
  · intro b hb
    rcases searchCandidates_some known_modules (dotSplit name) _ b hb with
      ⟨k, hk1, hki, hbk, hknown, hmax⟩
    refine ⟨hknown, ?_, k, hk1, hki, hbk, hmax⟩
    have hbne : b ≠ "" := fun hc => hne (hc ▸ hknown)
    unfold handle_direct_name
    rw [hb]
    exact if_pos hbne
  · intro hb
    refine ⟨searchCandidates_none known_modules (dotSplit name) _ hb, ?_⟩
    unfold handle_direct_name
    rw [hb]

/-- C4 witness (Scenario B): importing `sub.deep.mod` when only `sub.deep`
(and `top`) are known resolves to the proper prefix `sub.deep`, not to a
non-match. -/
theorem direct_import_most_specific_witness :
    firstKnownCandidate "sub.deep.mod"
        [("sub.deep", ["sub", "deep", "__init__.py"]), ("top", ["top.py"])] =
      some "sub.deep" ∧
    handle_direct_name
        [("sub.deep", ["sub", "deep", "__init__.py"]), ("top", ["top.py"])]
        [] "sub.deep.mod" = ["sub.deep"] := by
  have h :=
    (direct_import_most_specific "sub.deep.mod"
        [("sub.deep", ["sub", "deep", "__init__.py"]), ("top", ["top.py"])]
        [] (by decide)).1 "sub.deep" (by decide)
  exact ⟨by decide, h.2.1.trans (by decide)⟩

/-- C5: an absolute from-style import with no base resolves nothing; with a
base, each imported name resolves `base.name` when known, else falls back
to `base` when known, else contributes nothing; consequently
`from base import *` with `base` known and no matching submodule resolves
to exactly the singleton containing `base`, however many names fail. -/
theorem absolute_from_import_spec (names : List String)
    (current_module : String) (known_modules : Registry)
    (imported : List String) (m : String) :
    (handle_ast_import_from 0 none names current_module known_modules
        imported = imported) ∧
    (∀ x,
      x ∈ handle_ast_import_from 0 (some m) names current_module
          known_modules imported ↔
        x ∈ imported ∨
          (∃ n ∈ names, x = m ++ "." ++ n ∧ x ∈ dictKeys known_modules) ∨
          (x = m ∧ m ∈ dictKeys known_modules ∧
            ∃ n ∈ names, (m ++ "." ++ n) ∉ dictKeys known_modules)) ∧
    (names ≠ [] → m ∈ dictKeys known_modules →
      (∀ n ∈ names, (m ++ "." ++ n) ∉ dictKeys known_modules) →
      handle_ast_import_from 0 (some m) names current_module known_modules
        [] = [m]) := by
  refine ⟨rfl, ?_, ?_⟩
  · intro x
    show x ∈ names.foldl (absStep known_modules m) imported ↔ _
    exact mem_foldl_absStep known_modules m names imported x
  · intro hne hm hall
    show names.foldl (absStep known_modules m) [] = [m]
    cases names with
    | nil => exact absurd rfl hne
    | cons n names =>
      rw [List.foldl_cons]
      have hstep : absStep known_modules m [] n = [m] := by
        unfold absStep
        rw [if_neg (hall n (List.mem_cons_self n names)), if_pos hm]
        rfl
      rw [hstep]
      exact foldl_absStep_of_all_unknown known_modules m hm names [m]
        (fun n' hn' => hall n' (List.mem_cons_of_mem n hn'))
        (List.mem_singleton.mpr rfl)

/-- C5 witness (Scenario E): `from base import *` (even with several
wildcards) where `base` is known and no submodule matches resolves to
`base` exactly once. -/
theorem absolute_from_import_spec_witness :
    handle_ast_import_from 0 (some "base") ["*", "*"] "top"
      [("base", ["base.py"])] [] = ["base"] :=
  (absolute_from_import_spec ["*", "*"] "top" [("base", ["base.py"])] []
    "base").2.2 (by decide) (by decide) (by decide)

/-- C7: the dead view keeps exactly the modules with importer count 0; the
cold view keeps exactly those with importer count in `[1, max]` and at
least the minimum depth; no module is in both views; and both views are
sorted by their key orders (for dead: depth descending then module name
ascending, so a zero-importer module at depth 3 sorts before one at
depth 1). -/
theorem dead_cold_views_spec (results : List ModuleMetrics)
    (max_imports min_depth : Nat) :
    (∀ r, r ∈ deadView results ↔ r ∈ results ∧ r.import_count = 0) ∧
    (∀ r, r ∈ coldView max_imports min_depth results ↔
      r ∈ results ∧ 1 ≤ r.import_count ∧ r.import_count ≤ max_imports ∧
        min_depth ≤ r.depth) ∧
    (∀ r, r ∈ deadView results →
      r ∉ coldView max_imports min_depth results) ∧
    List.Pairwise deadLe (deadView results) ∧
    List.Pairwise coldLe (coldView max_imports min_depth results) := by
  have hdead : ∀ r, r ∈ deadView results ↔ r ∈ results ∧ r.import_count = 0 := by
    intro r
    unfold deadView
    rw [List.mem_insertionSort, List.mem_filter, decide_eq_true_eq]
  have hcold : ∀ r, r ∈ coldView max_imports min_depth results ↔
      r ∈ results ∧ 1 ≤ r.import_count ∧ r.import_count ≤ max_imports ∧
        min_depth ≤ r.depth := by
    intro r
    unfold coldView
    rw [List.mem_insertionSort, List.mem_filter, decide_eq_true_eq]
  refine ⟨hdead, hcold, ?_, ?_, ?_⟩
  · intro r hr hrc
    have h0 : r.import_count = 0 := ((hdead r).mp hr).2
    have h1 : 1 ≤ r.import_count := ((hcold r).mp hrc).2.1
    omega
  · exact List.sorted_insertionSort deadLe _
  · exact List.sorted_insertionSort coldLe _

/-- C7 witness (Scenario C): among the dead modules, the zero-importer
module at depth 3 sorts before the zero-importer module at depth 1, and a
module with one importer is kept by the cold view, not the dead view. -/
theorem dead_cold_views_spec_witness :
    (ModuleMetrics.mk "p.q.r.s" "p/q/r/s.py" 3 0 [] 0 ∈
      deadView
        [ModuleMetrics.mk "a" "a.py" 1 0 [] 0,
          ModuleMetrics.mk "p.q.r.s" "p/q/r/s.py" 3 0 [] 0,
          ModuleMetrics.mk "b" "b.py" 0 1 ["a.py"] 0]) ∧
    deadView
        [ModuleMetrics.mk "a" "a.py" 1 0 [] 0,
          ModuleMetrics.mk "p.q.r.s" "p/q/r/s.py" 3 0 [] 0,
          ModuleMetrics.mk "b" "b.py" 0 1 ["a.py"] 0] =
      [ModuleMetrics.mk "p.q.r.s" "p/q/r/s.py" 3 0 [] 0,
        ModuleMetrics.mk "a" "a.py" 1 0 [] 0] := by
  constructor
  · exact ((dead_cold_views_spec
      [ModuleMetrics.mk "a" "a.py" 1 0 [] 0,
        ModuleMetrics.mk "p.q.r.s" "p/q/r/s.py" 3 0 [] 0,
        ModuleMetrics.mk "b" "b.py" 0 1 ["a.py"] 0] 3 0).1
      (ModuleMetrics.mk "p.q.r.s" "p/q/r/s.py" 3 0 [] 0)).mpr
      ⟨by decide, by decide⟩
  · decide

/-- C8 counterexample: the claim quantifies over any Known-Module Set, but a
wildcard-only no-base relative import does not always resolve to the empty
set: when a module literally named `a.*` is known (a file `a/*.py`), the
anchor + wildcard candidate matches it. -/
theorem resolver_wildcard_no_base_counterexample :
    resolve_relative_import 1 none ["*"] "a.b" [("a.*", ["a", "wild.py"])] =
      ["a.*"] := by decide

/-- C8 (amended): both resolution paths are total and only ever return
known module names; an empty name list resolves to the empty set; and a
wildcard-only import with no base resolves to the empty set provided the
candidate formed from the anchor and the wildcard marker is not itself a
known module name. -/
theorem resolver_total_spec (level : Nat) (module : Option String)
    (names : List String) (current_module : String)
    (known_modules : Registry) (imported : List String) :
    (∀ x ∈ resolve_relative_import level module names current_module
        known_modules, x ∈ dictKeys known_modules) ∧
    (∀ x ∈ handle_ast_import_from level module names current_module
        known_modules imported,
      x ∈ imported ∨ x ∈ dictKeys known_modules) ∧
    (resolve_relative_import level module [] current_module
      known_modules = []) ∧
    (handle_ast_import_from level module [] current_module known_modules
      imported = imported) ∧
    ((∀ n ∈ names, n = "*") →
      joinDots (dropLastPy (dotSplit current_module) level ++ ["*"]) ∉
        dictKeys known_modules →
      resolve_relative_import level none names current_module
        known_modules = []) := by
  have hrel : ∀ x ∈ resolve_relative_import level module names
      current_module known_modules, x ∈ dictKeys known_modules := by
    intro x hx
    simp only [resolve_relative_import] at hx
    split_ifs at hx with hlen
    · exact absurd hx (List.not_mem_nil x)
    · cases module with
      | some m =>
        rcases subset_foldl_relStepBase _ _ names [] x hx with hacc | hk
        · exact absurd hacc (List.not_mem_nil x)
        · exact hk
      | none =>
        rcases mem_foldl_relStepNoBase _ _ names [] x hx with
          hacc | ⟨n, _, _, hk⟩
        · exact absurd hacc (List.not_mem_nil x)
        · exact hk
  have hempty : resolve_relative_import level module [] current_module
      known_modules = [] := by
    simp only [resolve_relative_import]
    split_ifs
    · rfl
    · cases module <;> rfl
  refine ⟨hrel, ?_, hempty, ?_, ?_⟩
  · intro x hx
    unfold handle_ast_import_from at hx
    split_ifs at hx with hpos
    · rcases (mem_foldl_insertSet _ imported x).mp hx with hacc | hres
      · exact Or.inl hacc
      · exact Or.inr (hrel x hres)
    · cases module with
      | none => exact Or.inl hx
      | some m =>
        rcases (mem_foldl_absStep known_modules m names imported x).mp hx with
          hacc | ⟨n, _, _, hk⟩ | ⟨hxm, hk, _⟩
        · exact Or.inl hacc
        · exact Or.inr hk
        · exact Or.inr (hxm ▸ hk)
  · unfold handle_ast_import_from
    split_ifs with hpos
    · rw [hempty]
      rfl
    · cases module <;> rfl
  · intro hall hcand
    simp only [resolve_relative_import]
    split_ifs with hlen
    · rfl
    · exact allstar_foldl_relStepNoBase known_modules _ hcand names [] hall

/-- C8 amended-claim witness: with the ordinary known set `a.b`, a
wildcard-only no-base import resolves to the empty set. -/
theorem resolver_total_spec_witness :
    resolve_relative_import 1 none ["*"] "a.b" [("a.b", ["a", "b.py"])] =
      [] :=
  (resolver_total_spec 1 none ["*"] "a.b" [("a.b", ["a", "b.py"])]
    []).2.2.2.2 (by decide) (by decide)

/-- C9: the registry is a function from canonical name to a single path —
its key list has no duplicates — and under name collisions the binding for
a nonempty name `m` is the path of the file occurring last in the sorted
lexicographic enumeration order among those mapping to `m`. -/
theorem registry_collision_last_wins (files : List SourceFile) (m : String)
    (hm : m ≠ "") :
    (dictKeys (build_module_registry files)).Nodup ∧
    dictLookup (build_module_registry files) m =
      lastMatchPath (collect_python_files files) m :=
  ⟨nodup_dictKeys_registry files, registry_lookup_lastMatch files m hm⟩

/-- C9 witness: with `pkg/__init__.py` and `pkg.py` both yielding `pkg`,
the registry binds `pkg` to `pkg/__init__.py`, the later of the two in
sorted enumeration order (`"pkg.py" < "pkg/__init__.py"`). -/
theorem registry_collision_last_wins_witness :
    dictLookup
        (build_module_registry
          [⟨["pkg", "__init__.py"], []⟩, ⟨["pkg.py"], []⟩]) "pkg" =
      lastMatchPath
        (collect_python_files
          [⟨["pkg", "__init__.py"], []⟩, ⟨["pkg.py"], []⟩]) "pkg" ∧
    lastMatchPath
        (collect_python_files
          [⟨["pkg", "__init__.py"], []⟩, ⟨["pkg.py"], []⟩]) "pkg" =
      some ["pkg", "__init__.py"] :=
  ⟨(registry_collision_last_wins
      [⟨["pkg", "__init__.py"], []⟩, ⟨["pkg.py"], []⟩] "pkg" (by decide)).2,
    by decide⟩

/-- C10: a root-level package initializer (canonical name empty) is skipped
entirely as an importer — wiping the import records of every empty-named
file changes neither the registry nor any analysis output, so such a file
contributes no edges while the modules it references stay valid dependency
targets for every other file. -/
theorem root_init_imports_ignored (files : List SourceFile) :
    build_module_registry (files.map scrub) = build_module_registry files ∧
    analyze (files.map scrub) = analyze files := by
  refine ⟨registry_map_scrub files, ?_⟩
  simp only [analyze]
  rw [registry_map_scrub, index_map_scrub]

/-- C6: a package-initializer file maps to the dotted name of its
containing directory; at the root that name is empty and such a file is
excluded from the registry; any other file maps to its directory segments
plus its suffix-stripped base name; and every module's reported depth is
the number of its file-path segments after the root minus one. -/
theorem module_naming_and_depth_spec :
    (∀ dir : List String,
      file_to_module_name (dir ++ ["__init__.py"]) = joinDots dir) ∧
    (file_to_module_name ["__init__.py"] = "" ∧
      ∀ files : List SourceFile,
        "" ∉ dictKeys (build_module_registry files)) ∧
    (∀ (dir : List String) (base : String), base ≠ "__init__.py" →
      file_to_module_name (dir ++ [base]) =
        joinDots (dir ++ [pyDropRight base 3])) ∧
    (∀ (files : List SourceFile) (r : ModuleMetrics), r ∈ analyze files →
      ∃ p : RelPath,
        dictLookup (build_module_registry files) r.module = some p ∧
        r.rel_path = pathStr p ∧ r.depth = p.length - 1) := by
  refine ⟨?_, ⟨rfl, no_empty_dictKeys_registry⟩, ?_, ?_⟩
  · intro dir
    have h1 : (dir ++ ["__init__.py"]).getLast? = some "__init__.py" :=
      List.getLast?_concat dir
    simp [file_to_module_name, h1, List.dropLast_concat]
  · intro dir base hbase
    have h1 : (dir ++ [base]).getLast? = some base := List.getLast?_concat dir
    simp [file_to_module_name, h1, List.dropLast_concat, hbase]
  · intro files r hr
    simp only [analyze] at hr
    rcases List.mem_map.mp hr with ⟨p, hp, rfl⟩
    refine ⟨p.2, ?_, rfl, rfl⟩
    have hmem : (p.1, p.2) ∈ build_module_registry files := by
      rw [Prod.mk.eta]
      exact hp
    exact dictLookup_of_mem _ p.1 p.2 hmem (nodup_dictKeys_registry files)

/-- C6 witness: `a/b.py` maps to `a` + suffix-stripped `b.py`, i.e. `a.b`. -/
theorem module_naming_and_depth_spec_witness :
    file_to_module_name ["a", "b.py"] =
        joinDots (["a"] ++ [pyDropRight "b.py" 3]) ∧
    joinDots (["a"] ++ [pyDropRight "b.py" 3]) = "a.b" :=
  ⟨module_naming_and_depth_spec.2.2.1 ["a"] "b.py" (by decide), by decide⟩

/-- C1 counterexample: taken literally over all files of the tree, the
claim fails. In `exTreeC1` the reported importer count of `pkg` is 0, yet
two distinct files other than `pkg`'s registry file (`pkg/__init__.py`)
have `pkg` in their resolved dependency set: the root initializer
`__init__.py` (skipped because its canonical name is empty) and the
shadowed `pkg.py` (skipped because its canonical name equals `pkg`). -/
theorem analyze_importer_count_counterexample :
    (analyze exTreeC1).map (fun r => (r.module, r.import_count)) =
      [("pkg", 0)] ∧
    claimedImporterCount exTreeC1 "pkg" = 2 :=
  ⟨by decide, by decide⟩

/-- C1 (amended): every registry module appears exactly once in the
metrics list (the metrics module column equals the duplicate-free registry
key list, including zero-importer modules); the Importer Index key set
equals the Known-Module Set; and each module's importer count equals the
number of distinct root-relative paths of files with a nonempty canonical
module name different from the module whose resolved dependency set
contains it — in particular the importer set never contains a path of the
module's own file, so a module is never its own importer. -/
theorem analyze_metrics_invariants (files : List SourceFile) :
    ((analyze files).map (fun r => r.module) =
        dictKeys (build_module_registry files) ∧
      (dictKeys (build_module_registry files)).Nodup) ∧
    dictKeys
        (build_importer_index (build_module_registry files) files) =
      dictKeys (build_module_registry files) ∧
    ∀ r ∈ analyze files,
      (r.import_count =
        (((collect_python_files files).filter
              (fun f => isOtherImporter (build_module_registry files)
                r.module f)).map
            (fun f => pathStr f.path)).dedup.length) ∧
      (∀ x, x ∈ r.importers ↔
        ∃ f ∈ collect_python_files files,
          x = pathStr f.path ∧ file_to_module_name f.path ≠ "" ∧
          file_to_module_name f.path ≠ r.module ∧
          r.module ∈ parse_file_imports f.records
            (file_to_module_name f.path) (build_module_registry files)) := by
  refine ⟨⟨?_, nodup_dictKeys_registry files⟩,
    dictKeys_build_importer_index _ _, ?_⟩
  · simp only [analyze]
    rw [List.map_map]
    rfl
  · intro r hr
    simp only [analyze] at hr
    rcases List.mem_map.mp hr with ⟨p, hp, rfl⟩
    dsimp only
    have hk : p.1 ∈ dictKeys (build_module_registry files) :=
      List.mem_map.mpr ⟨p, hp, rfl⟩
    have hlook :=
      indexLookup_build_importer_index (build_module_registry files) files
        p.1 hk
    constructor
    · rw [hlook]
      refine length_eq_dedup_length
        (nodup_foldl_insertSet _ [] List.nodup_nil) ?_
      intro x
      rw [mem_foldl_insertSet]
      simp only [List.not_mem_nil, false_or]
    · intro x
      rw [List.mem_insertionSort, hlook, mem_foldl_insertSet]
      simp only [List.not_mem_nil, false_or]
      rw [List.mem_map]
      constructor
      · rintro ⟨f, hf, rfl⟩
        have hfil := List.mem_filter.mp hf
        have hio := of_decide_eq_true hfil.2
        exact ⟨f, hfil.1, rfl, hio.1, hio.2.1, hio.2.2⟩
      · rintro ⟨f, hfc, hx, h1, h2, h3⟩
        refine ⟨f, List.mem_filter.mpr ⟨hfc, ?_⟩, hx.symm⟩
        unfold isOtherImporter
        exact decide_eq_true ⟨h1, h2, h3⟩

/-- C1 amended-claim witness: in `exTreeC1` the row for `pkg` reports
an importer count of 0, matching the amended count (no file with a nonempty
canonical name different from `pkg` resolves `pkg`). -/
theorem analyze_metrics_invariants_witness :
    exRowC1.import_count =
      (((collect_python_files exTreeC1).filter
            (fun f => isOtherImporter (build_module_registry exTreeC1)
              exRowC1.module f)).map
          (fun f => pathStr f.path)).dedup.length :=
  ((analyze_metrics_invariants exTreeC1).2.2 exRowC1 (by decide)).1

end PyMetrics
